import Mathlib

/-!
Verification of the image puzzle-shuffle module (`puzzle_shuffle.py`) of the
Elective4Group8 repository.

The Python module is embedded shallowly:

* an image is a pair of extents together with a total pixel function;
* the tile cutting and reassembly loops of `shuffle_image_puzzle` and
  `PuzzleShuffleGUI._assemble` become pure functions on such images;
* `random.Random(seed).shuffle` is the Fisher–Yates loop of CPython driven by
  a deterministic draw stream (the Mersenne-Twister internals live outside
  this repository; only determinism in `(seed, index)` and the in-range
  bound of each draw are used by any theorem below);
* the interactive state of `PuzzleShuffleGUI` (tile order, pending selection)
  becomes an explicit state record with a step function over the
  load/shuffle/click/reset events;
* the viewport arithmetic of `_show_cv` / `on_click` is carried out over `ℚ`;
  every floating-point value reached in the verified scenario is a small
  dyadic rational, which `ℚ` represents exactly.
-/

/-- Raster image: height, width and a total pixel function (one packed BGR
value per coordinate).  Reads outside the stated extent never occur in the
original arrays and are never inspected by the theorems below. -/
structure Img where
  h : Nat
  w : Nat
  px : Nat → Nat → Nat

/-- The all-zero image of a given extent (`np.zeros`). -/
def zeroImg (h w : Nat) : Img := ⟨h, w, fun _ _ => 0⟩

/-- Sub-image of `img` of extent `th × tw` whose top-left corner sits at tile
coordinates `(i, j)`: the slice `img[i*th:(i+1)*th, j*tw:(j+1)*tw]`. -/
def tileOf (img : Img) (th tw i j : Nat) : Img :=
  ⟨th, tw, fun y x => img.px (i * th + y) (j * tw + x)⟩

/-- The row-major tile list cut by the nested loops of `shuffle_image_puzzle`
(and of `PuzzleShuffleGUI.shuffle`): tile `i*gw + j` is the slice at tile
coordinates `(i, j)` with `th = h // gh` and `tw = w // gw`. -/
def partitionTiles (img : Img) (gh gw : Nat) : List Img :=
  (List.range gh).flatMap fun i =>
    (List.range gw).map fun j => tileOf img (img.h / gh) (img.w / gw) i j

/-- The write loop of `shuffle_image_puzzle`: starting from
`np.zeros_like(img)`, the grid position with row-major index `i*gw + j`
receives `tiles[order[i*gw + j]]`; pixels outside the grid region keep the
zero fill. -/
def reassembleTiles (base : Img) (gh gw : Nat) (tiles : List Img)
    (order : List Nat) : Img :=
  ⟨base.h, base.w, fun y x =>
    let th := base.h / gh
    let tw := base.w / gw
    if y < gh * th ∧ x < gw * tw then
      (tiles.getD (order.getD (y / th * gw + x / tw) 0) (zeroImg th tw)).px
        (y % th) (x % tw)
    else 0⟩

/-- Modelled from the spec: the draw stream of CPython's
`random.Random(seed)` (a seeded Mersenne Twister) is implemented outside
this repository; it is modelled as an explicit pure function of the seed and
the draw index.  The theorems below use only that the stream is such a pure
function — which is exactly the "independent seeded generator instance per
call" contract — and never the particular values drawn. -/
def mtDraw (seed k : Nat) : Nat :=
  (seed * 6364136223846793005 + k * 1442695040888963407 + 1013904223) %
    18446744073709551616

/-- Python's parallel element swap `x[i], x[j] = x[j], x[i]`: both right-hand
sides are read from the old list, then written back. -/
def listSwap (l : List Nat) (i j : Nat) : List Nat :=
  (l.set i (l.getD j 0)).set j (l.getD i 0)

/-- The Fisher–Yates loop of `random.Random.shuffle`: for `i` from `n-1`
down to `1`, swap `x[i]` with `x[j]` for a drawn `j` in `[0, i]`. -/
def shuffleFrom (seed : Nat) : Nat → List Nat → List Nat
  | 0, l => l
  | i + 1, l =>
      shuffleFrom seed i (listSwap l (i + 1) (mtDraw seed (i + 1) % (i + 2)))

/-- `random.Random(seed).shuffle(x)` as a pure function of the seed and the
list. -/
def pyShuffle (seed : Nat) (l : List Nat) : List Nat :=
  shuffleFrom seed (l.length - 1) l

/-- Order generation of `shuffle_image_puzzle`:
`order = list(range(n)); random.Random(seed).shuffle(order)`. -/
def genOrder (n seed : Nat) : List Nat := pyShuffle seed (List.range n)

/-- `shuffle_image_puzzle(img, grid_size, seed)`: cut the row-major tiles,
shuffle `range(len(tiles))` with a fresh seeded generator, and write tile
`order[p]` at grid position `p` of a zero image of the input's extent. -/
def shuffle_image_puzzle (img : Img) (gh gw seed : Nat) : Img × List Nat :=
  let tiles := partitionTiles img gh gw
  let order := genOrder tiles.length seed
  (reassembleTiles img gh gw tiles order, order)

/-! ### Permutation facts about the Fisher–Yates model -/

lemma getD_cons_set_perm :
    ∀ (t : List Nat) (k : Nat), k < t.length →
      ∀ a : Nat, List.Perm (t.getD k 0 :: t.set k a) (a :: t)
  | _ :: t, 0, _, a => List.Perm.swap a _ t
  | c :: t, k + 1, hk, a =>
      ((List.Perm.swap c (t.getD k 0) (t.set k a)).trans
        ((getD_cons_set_perm t k (by simpa using hk) a).cons c)).trans
        (List.Perm.swap a c t)

lemma listSwap_perm :
    ∀ (l : List Nat) (i j : Nat), i < l.length → j < l.length →
      List.Perm (listSwap l i j) l
  | c :: t, 0, 0, _, _ => by
      simp [listSwap]
  | c :: t, 0, k + 1, _, hj => by
      simpa [listSwap] using getD_cons_set_perm t k (by simpa using hj) c
  | c :: t, m + 1, 0, hi, _ => by
      simpa [listSwap] using getD_cons_set_perm t m (by simpa using hi) c
  | c :: t, m + 1, k + 1, hi, hj => by
      simpa [listSwap] using
        (listSwap_perm t m k (by simpa using hi) (by simpa using hj)).cons c

lemma listSwap_length (l : List Nat) (i j : Nat) :
    (listSwap l i j).length = l.length := by
  simp [listSwap]

lemma shuffleFrom_perm (seed : Nat) :
    ∀ (i : Nat) (l : List Nat), i < l.length →
      List.Perm (shuffleFrom seed i l) l
  | 0, l, _ => List.Perm.refl l
  | i + 1, l, hi => by
      have hj : mtDraw seed (i + 1) % (i + 2) < l.length :=
        lt_of_lt_of_le (Nat.mod_lt _ (Nat.succ_pos _)) hi
      have hswap := listSwap_perm l (i + 1) (mtDraw seed (i + 1) % (i + 2)) hi hj
      have hlen := listSwap_length l (i + 1) (mtDraw seed (i + 1) % (i + 2))
      exact (shuffleFrom_perm seed i _ (by rw [hlen]; omega)).trans hswap

lemma pyShuffle_perm (seed : Nat) (l : List Nat) :
    List.Perm (pyShuffle seed l) l := by
  cases l with
  | nil => exact List.Perm.refl _
  | cons c t =>
      exact shuffleFrom_perm seed _ _ (by simp)

lemma genOrder_perm (n seed : Nat) :
    List.Perm (genOrder n seed) (List.range n) :=
  pyShuffle_perm seed (List.range n)

lemma genOrder_length (n seed : Nat) : (genOrder n seed).length = n := by
  simpa using (genOrder_perm n seed).length_eq

/-- C2: seeded order generation is deterministic — as a pure function of
`(n, seed)` alone (the fresh `random.Random(seed)` instance shares no state
between calls) two calls with identical arguments coincide — and its output
is always a permutation of `{0 .. n-1}`, for every `n ≥ 0` and every seed. -/
theorem generate_order_deterministic_and_bijective (n seed : Nat) :
    genOrder n seed = genOrder n seed ∧
      List.Perm (genOrder n seed) (List.range n) :=
  ⟨rfl, genOrder_perm n seed⟩

/-! ### Indexing facts about the row-major tile list -/

lemma flatMap_range_getD (gw : Nat) (d : Img) :
    ∀ (i : Nat) (f : Nat → Nat → Img) (gh j : Nat), i < gh → j < gw →
      (((List.range gh).flatMap fun a => (List.range gw).map (f a)).getD
          (i * gw + j) d) = f i j
  | 0, f, gh, j, hi, hj => by
      obtain ⟨g, rfl⟩ : ∃ g, gh = g + 1 := ⟨gh - 1, by omega⟩
      rw [List.range_succ_eq_map, List.flatMap_cons, Nat.zero_mul, Nat.zero_add,
        List.getD_eq_getElem?_getD, List.getElem?_append_left (by simpa using hj)]
      simp [List.getElem?_range hj]
  | i + 1, f, gh, j, hi, hj => by
      obtain ⟨g, rfl⟩ : ∃ g, gh = g + 1 := ⟨gh - 1, by omega⟩
      have hidx : (i + 1) * gw + j = gw + (i * gw + j) := by ring
      rw [List.range_succ_eq_map, List.flatMap_cons, List.flatMap_map, hidx,
        List.getD_eq_getElem?_getD,
        List.getElem?_append_right (by simp)]
      simp only [List.length_map, List.length_range, Nat.add_sub_cancel_left]
      rw [← List.getD_eq_getElem?_getD]
      exact flatMap_range_getD gw d i (fun a => f (a + 1)) g j (by omega) hj

lemma range_getD_lt {n k : Nat} (h : k < n) : (List.range n).getD k 0 = k := by
  rw [List.getD_eq_getElem _ _ (by simpa using h)]
  simp

lemma partitionTiles_getD (img : Img) {gh gw : Nat} (hw : 0 < gw)
    (t : Nat) (ht : t < gh * gw) (d : Img) :
    (partitionTiles img gh gw).getD t d
      = tileOf img (img.h / gh) (img.w / gw) (t / gw) (t % gw) := by
  have hj : t % gw < gw := Nat.mod_lt _ hw
  have hi : t / gw < gh := (Nat.div_lt_iff_lt_mul hw).2 ht
  have hidx : t / gw * gw + t % gw = t := by
    rw [Nat.mul_comm]
    exact Nat.div_add_mod t gw
  have h := flatMap_range_getD gw d (t / gw)
    (fun i j => tileOf img (img.h / gh) (img.w / gw) i j) gh (t % gw) hi hj
  rw [hidx] at h
  simpa [partitionTiles] using h

lemma block_lt {a r g t : Nat} (ha : a < g) (hr : r < t) : a * t + r < g * t :=
  calc a * t + r < (a + 1) * t := by
        rw [Nat.add_mul, Nat.one_mul]
        omega
  _ ≤ g * t := Nat.mul_le_mul_right t ha

/-- Pixel-level description of reassembling the row-major tiles of `img`
under an arbitrary in-range placement `order`, inside the truncated grid
region. -/
lemma reassemble_partition_px (img : Img) {gh gw : Nat}
    (hw : 0 < gw) (order : List Nat)
    (hbound : ∀ i : Nat, order.getD i 0 < gh * gw)
    {y x : Nat} (hy : y < gh * (img.h / gh)) (hx : x < gw * (img.w / gw)) :
    (reassembleTiles img gh gw (partitionTiles img gh gw) order).px y x =
      img.px
        (order.getD (y / (img.h / gh) * gw + x / (img.w / gw)) 0 / gw
            * (img.h / gh) + y % (img.h / gh))
        (order.getD (y / (img.h / gh) * gw + x / (img.w / gw)) 0 % gw
            * (img.w / gw) + x % (img.w / gw)) := by
  have hcond : y < gh * (img.h / gh) ∧ x < gw * (img.w / gw) := ⟨hy, hx⟩
  show (if y < gh * (img.h / gh) ∧ x < gw * (img.w / gw) then _ else 0) = _
  rw [if_pos hcond]
  rw [partitionTiles_getD img hw _ (hbound _) _]
  rfl

/-- Position of tile value `q` in `order` (`order.index(q)` in Python,
`order.indexOf q` here): the inverse permutation read off a solution
record. -/
def invPerm (order : List Nat) : List Nat :=
  (List.range order.length).map fun q => order.indexOf q

/-- The reconstruction contract of the solution record: cut the shuffled
image back into row-major tiles and place, at each grid position `q`, the
shuffled tile found at position `order.index(q)` — that is, reassemble the
shuffled tiles under the inverse permutation. -/
def reconstructFromShuffled (sh : Img) (gh gw : Nat) (order : List Nat) : Img :=
  reassembleTiles sh gh gw (partitionTiles sh gh gw) (invPerm order)

lemma indexOf_lt_of_mem : ∀ (l : List Nat) (q : Nat), q ∈ l →
    l.indexOf q < l.length
  | c :: t, q, h => by
      by_cases hc : c = q
      · simp [List.indexOf_cons, hc]
      · have hq : q ∈ t := by
          rcases List.mem_cons.1 h with h' | h'
          · exact absurd h'.symm hc
          · exact h'
        have hb : (c == q) = false := by simpa using hc
        rw [List.length_cons, List.indexOf_cons, hb]
        simpa using indexOf_lt_of_mem t q hq

lemma getD_indexOf : ∀ (l : List Nat) (q : Nat), q ∈ l →
    l.getD (l.indexOf q) 0 = q
  | c :: t, q, h => by
      by_cases hc : c = q
      · simp [List.indexOf_cons, hc]
      · have hq : q ∈ t := by
          rcases List.mem_cons.1 h with h' | h'
          · exact absurd h'.symm hc
          · exact h'
        have hb : (c == q) = false := by simpa using hc
        rw [List.indexOf_cons, hb]
        simpa using getD_indexOf t q hq

lemma invPerm_getD (order : List Nat) {q : Nat} (hq : q < order.length) :
    (invPerm order).getD q 0 = order.indexOf q := by
  rw [invPerm, List.getD_eq_getElem _ _ (by simpa using hq)]
  simp

lemma reassembleTiles_h (base : Img) (gh gw : Nat) (tiles : List Img)
    (order : List Nat) : (reassembleTiles base gh gw tiles order).h = base.h :=
  rfl

lemma reassembleTiles_w (base : Img) (gh gw : Nat) (tiles : List Img)
    (order : List Nat) : (reassembleTiles base gh gw tiles order).w = base.w :=
  rfl

lemma flatMap_const_length (f : Nat → List Img) (k : Nat)
    (hf : ∀ i, (f i).length = k) :
    ∀ g : Nat, ((List.range g).flatMap f).length = g * k
  | 0 => by simp
  | g + 1 => by
      rw [List.range_succ, List.flatMap_append, List.length_append,
        flatMap_const_length f k hf g]
      simp [hf, Nat.succ_mul]

lemma partitionTiles_length (img : Img) (gh gw : Nat) :
    (partitionTiles img gh gw).length = gh * gw := by
  rw [partitionTiles]
  exact flatMap_const_length _ gw (fun i => by simp) gh

/-- Reassembling the row-major tiles under the identity order reproduces the
truncated image pixel for pixel. -/
lemma reassemble_identity_px (img : Img) {gh gw : Nat} (hg : 0 < gh)
    (hw : 0 < gw) {y x : Nat} (hy : y < gh * (img.h / gh))
    (hx : x < gw * (img.w / gw)) :
    (reassembleTiles img gh gw (partitionTiles img gh gw)
        (List.range (gh * gw))).px y x = img.px y x := by
  have hth : 0 < img.h / gh := by
    rcases Nat.eq_zero_or_pos (img.h / gh) with h0 | h0
    · rw [h0, Nat.mul_zero] at hy
      exact absurd hy (Nat.not_lt_zero y)
    · exact h0
  have htw : 0 < img.w / gw := by
    rcases Nat.eq_zero_or_pos (img.w / gw) with h0 | h0
    · rw [h0, Nat.mul_zero] at hx
      exact absurd hx (Nat.not_lt_zero x)
    · exact h0
  have hn : 0 < gh * gw := Nat.mul_pos hg hw
  have hrange : ∀ i : Nat, (List.range (gh * gw)).getD i 0 < gh * gw := by
    intro i
    by_cases h : i < gh * gw
    · rw [range_getD_lt h]
      exact h
    · rw [List.getD_eq_default _ _ (by rw [List.length_range]; omega)]
      exact hn
  have hq : y / (img.h / gh) * gw + x / (img.w / gw) < gh * gw :=
    block_lt ((Nat.div_lt_iff_lt_mul hth).2 hy) ((Nat.div_lt_iff_lt_mul htw).2 hx)
  rw [reassemble_partition_px img hw _ hrange hy hx, range_getD_lt hq]
  have hqdiv : (y / (img.h / gh) * gw + x / (img.w / gw)) / gw = y / (img.h / gh) := by
    rw [Nat.mul_comm (y / (img.h / gh)) gw, Nat.mul_add_div hw,
      Nat.div_eq_of_lt ((Nat.div_lt_iff_lt_mul htw).2 hx), Nat.add_zero]
  have hqmod : (y / (img.h / gh) * gw + x / (img.w / gw)) % gw = x / (img.w / gw) := by
    rw [Nat.mul_comm (y / (img.h / gh)) gw, Nat.mul_add_mod]
    exact Nat.mod_eq_of_lt ((Nat.div_lt_iff_lt_mul htw).2 hx)
  rw [hqdiv, hqmod]
  have hyy : y / (img.h / gh) * (img.h / gh) + y % (img.h / gh) = y := by
    rw [Nat.mul_comm]
    exact Nat.div_add_mod y (img.h / gh)
  have hxx : x / (img.w / gw) * (img.w / gw) + x % (img.w / gw) = x := by
    rw [Nat.mul_comm]
    exact Nat.div_add_mod x (img.w / gw)
  rw [hyy, hxx]

/-- Cutting the shuffled image back into tiles and reassembling them under
the inverse permutation recovers every pixel of the truncated original. -/
lemma reconstruct_shuffled_px (img : Img) {gh gw : Nat} (hg : 0 < gh)
    (hw : 0 < gw) (σ : List Nat) (hperm : List.Perm σ (List.range (gh * gw)))
    {y x : Nat} (hy : y < gh * (img.h / gh)) (hx : x < gw * (img.w / gw)) :
    (reconstructFromShuffled
        (reassembleTiles img gh gw (partitionTiles img gh gw) σ) gh gw σ).px y x
      = img.px y x := by
  have hth : 0 < img.h / gh := by
    rcases Nat.eq_zero_or_pos (img.h / gh) with h0 | h0
    · rw [h0, Nat.mul_zero] at hy
      exact absurd hy (Nat.not_lt_zero y)
    · exact h0
  have htw : 0 < img.w / gw := by
    rcases Nat.eq_zero_or_pos (img.w / gw) with h0 | h0
    · rw [h0, Nat.mul_zero] at hx
      exact absurd hx (Nat.not_lt_zero x)
    · exact h0
  have hn : 0 < gh * gw := Nat.mul_pos hg hw
  have hσlen : σ.length = gh * gw := by
    rw [hperm.length_eq, List.length_range]
  have hmem : ∀ t, t < gh * gw → t ∈ σ := fun t ht =>
    hperm.mem_iff.2 (List.mem_range.2 ht)
  have hσbound : ∀ i : Nat, σ.getD i 0 < gh * gw := by
    intro i
    by_cases h : i < σ.length
    · rw [List.getD_eq_getElem _ _ h]
      exact List.mem_range.1 (hperm.mem_iff.1 (List.getElem_mem h))
    · rw [List.getD_eq_default _ _ (by omega)]
      exact hn
  have hinvlen : (invPerm σ).length = gh * gw := by
    rw [invPerm, List.length_map, List.length_range, hσlen]
  have hinvbound : ∀ i : Nat, (invPerm σ).getD i 0 < gh * gw := by
    intro i
    by_cases h : i < gh * gw
    · rw [invPerm_getD σ (by rw [hσlen]; exact h), ← hσlen]
      exact indexOf_lt_of_mem σ i (hmem i h)
    · rw [List.getD_eq_default _ _ (by rw [hinvlen]; omega)]
      exact hn
  have hq : y / (img.h / gh) * gw + x / (img.w / gw) < gh * gw :=
    block_lt ((Nat.div_lt_iff_lt_mul hth).2 hy) ((Nat.div_lt_iff_lt_mul htw).2 hx)
  rw [reconstructFromShuffled]
  rw [reassemble_partition_px (reassembleTiles img gh gw (partitionTiles img gh gw) σ)
    hw (invPerm σ) hinvbound
    (by rw [reassembleTiles_h]; exact hy) (by rw [reassembleTiles_w]; exact hx)]
  simp only [reassembleTiles_h, reassembleTiles_w]
  have hpget : (invPerm σ).getD (y / (img.h / gh) * gw + x / (img.w / gw)) 0
      = σ.indexOf (y / (img.h / gh) * gw + x / (img.w / gw)) :=
    invPerm_getD σ (by rw [hσlen]; exact hq)
  rw [hpget]
  generalize hp : σ.indexOf (y / (img.h / gh) * gw + x / (img.w / gw)) = p at *
  have hplt : p < gh * gw := by
    rw [← hp, ← hσlen]
    exact indexOf_lt_of_mem σ _ (hmem _ hq)
  have hY : p / gw * (img.h / gh) + y % (img.h / gh) < gh * (img.h / gh) :=
    block_lt ((Nat.div_lt_iff_lt_mul hw).2 hplt) (Nat.mod_lt y hth)
  have hX : p % gw * (img.w / gw) + x % (img.w / gw) < gw * (img.w / gw) :=
    block_lt (Nat.mod_lt p hw) (Nat.mod_lt x htw)
  rw [reassemble_partition_px img hw σ hσbound hY hX]
  have hYdiv : (p / gw * (img.h / gh) + y % (img.h / gh)) / (img.h / gh) = p / gw := by
    rw [Nat.mul_comm (p / gw) (img.h / gh), Nat.mul_add_div hth,
      Nat.div_eq_of_lt (Nat.mod_lt y hth), Nat.add_zero]
  have hYmod : (p / gw * (img.h / gh) + y % (img.h / gh)) % (img.h / gh)
      = y % (img.h / gh) := by
    rw [Nat.mul_comm (p / gw) (img.h / gh), Nat.mul_add_mod]
    exact Nat.mod_eq_of_lt (Nat.mod_lt y hth)
  have hXdiv : (p % gw * (img.w / gw) + x % (img.w / gw)) / (img.w / gw) = p % gw := by
    rw [Nat.mul_comm (p % gw) (img.w / gw), Nat.mul_add_div htw,
      Nat.div_eq_of_lt (Nat.mod_lt x htw), Nat.add_zero]
  have hXmod : (p % gw * (img.w / gw) + x % (img.w / gw)) % (img.w / gw)
      = x % (img.w / gw) := by
    rw [Nat.mul_comm (p % gw) (img.w / gw), Nat.mul_add_mod]
    exact Nat.mod_eq_of_lt (Nat.mod_lt x htw)
  simp only [hYdiv, hYmod, hXdiv, hXmod]
  have hpp : p / gw * gw + p % gw = p := by
    rw [Nat.mul_comm]
    exact Nat.div_add_mod p gw
  rw [hpp]
  have hgetp : σ.getD p 0 = y / (img.h / gh) * gw + x / (img.w / gw) := by
    rw [← hp]
    exact getD_indexOf σ _ (hmem _ hq)
  rw [hgetp]
  have hqdiv : (y / (img.h / gh) * gw + x / (img.w / gw)) / gw = y / (img.h / gh) := by
    rw [Nat.mul_comm (y / (img.h / gh)) gw, Nat.mul_add_div hw,
      Nat.div_eq_of_lt ((Nat.div_lt_iff_lt_mul htw).2 hx), Nat.add_zero]
  have hqmod : (y / (img.h / gh) * gw + x / (img.w / gw)) % gw = x / (img.w / gw) := by
    rw [Nat.mul_comm (y / (img.h / gh)) gw, Nat.mul_add_mod]
    exact Nat.mod_eq_of_lt ((Nat.div_lt_iff_lt_mul htw).2 hx)
  rw [hqdiv, hqmod]
  have hyy : y / (img.h / gh) * (img.h / gh) + y % (img.h / gh) = y := by
    rw [Nat.mul_comm]
    exact Nat.div_add_mod y (img.h / gh)
  have hxx : x / (img.w / gw) * (img.w / gw) + x % (img.w / gw) = x := by
    rw [Nat.mul_comm]
    exact Nat.div_add_mod x (img.w / gw)
  rw [hyy, hxx]

/-- Sample 6×6 image used to instantiate hypothesised theorems. -/
def sampleImg : Img := ⟨6, 6, fun y x => 10 * y + x⟩

/-- C1: for every image and grid tier, reassembling the row-major tiles
under the identity permutation reproduces the truncated image exactly
(`tile_h = H / rows`, `tile_w = W / cols`, remainder pixels discarded), and
applying the inverse permutation to the tiles of the shuffled output of
`shuffle_image_puzzle` reconstructs the truncated original image, pixel for
pixel, for every seed. -/
theorem partition_reassemble_roundtrip (img : Img) (gh gw : Nat)
    (htier : (gh, gw) = (3, 3) ∨ (gh, gw) = (4, 4) ∨ (gh, gw) = (5, 5))
    (y x : Nat) (hy : y < gh * (img.h / gh)) (hx : x < gw * (img.w / gw)) :
    (reassembleTiles img gh gw (partitionTiles img gh gw)
        (List.range (gh * gw))).px y x = img.px y x
    ∧ ∀ seed : Nat,
        (reconstructFromShuffled (shuffle_image_puzzle img gh gw seed).1 gh gw
            (shuffle_image_puzzle img gh gw seed).2).px y x = img.px y x := by
  have hgw : 0 < gh ∧ 0 < gw := by
    rcases htier with h | h | h <;> (rw [Prod.mk.injEq] at h; omega)
  obtain ⟨hg, hw⟩ := hgw
  refine ⟨reassemble_identity_px img hg hw hy hx, fun seed => ?_⟩
  have h2 : (shuffle_image_puzzle img gh gw seed).2 = genOrder (gh * gw) seed := by
    show genOrder (partitionTiles img gh gw).length seed = _
    rw [partitionTiles_length]
  have h1 : (shuffle_image_puzzle img gh gw seed).1
      = reassembleTiles img gh gw (partitionTiles img gh gw)
          (genOrder (gh * gw) seed) := by
    show reassembleTiles img gh gw (partitionTiles img gh gw)
        (genOrder (partitionTiles img gh gw).length seed) = _
    rw [partitionTiles_length]
  rw [h1, h2]
  exact reconstruct_shuffled_px img hg hw _ (genOrder_perm _ _) hy hx

theorem partition_reassemble_roundtrip_witness :
    ((3, 3) = ((3, 3) : Nat × Nat) ∨ (3, 3) = ((4, 4) : Nat × Nat)
        ∨ (3, 3) = ((5, 5) : Nat × Nat))
    ∧ (1 : Nat) < 3 * (sampleImg.h / 3) ∧ (2 : Nat) < 3 * (sampleImg.w / 3)
    ∧ ((reassembleTiles sampleImg 3 3 (partitionTiles sampleImg 3 3)
          (List.range (3 * 3))).px 1 2 = sampleImg.px 1 2
        ∧ ∀ seed : Nat,
          (reconstructFromShuffled (shuffle_image_puzzle sampleImg 3 3 seed).1 3 3
              (shuffle_image_puzzle sampleImg 3 3 seed).2).px 1 2
            = sampleImg.px 1 2) :=
  ⟨Or.inl rfl, by decide, by decide,
    partition_reassemble_roundtrip sampleImg 3 3 (Or.inl rfl) 1 2
      (by decide) (by decide)⟩

/-! ### The interactive puzzle state machine of `PuzzleShuffleGUI` -/

/-- Observable interactive state of `PuzzleShuffleGUI`: the fixed grid tier,
whether an image has been opened (`orig_img is not None`), the live
permutation `tile_order` (`none` while `tiles`/`tile_order` are `None`), and
the pending-selection list `selected`. -/
structure PuzzleState where
  gh : Nat
  gw : Nat
  loaded : Bool
  tileOrder : Option (List Nat)
  selected : List Nat

/-- Events driving the state machine: `open_image` (load), `shuffle` (the
unseeded `np.random.default_rng()` of the GUI is modelled by quantifying
over the seed of the draw stream), a click already mapped to a grid cell
`(row, col)`, and `reset`. -/
inductive Ev where
  | load
  | shuffle (seed : Nat)
  | click (row col : Nat)
  | reset

/-- Selection/swap logic of `on_click` once the click maps to the in-bounds
grid index `idx`: an empty selection records `idx`; otherwise the pending
index is popped and, unless it equals `idx` (or indexing would fail), the
two permutation entries are swapped. -/
def clickCore (st : PuzzleState) (ord : List Nat) (idx : Nat) : PuzzleState :=
  if st.selected.isEmpty then { st with selected := [idx] }
  else
    let a := st.selected.getLastD 0
    let rest := st.selected.dropLast
    if a = idx then { st with selected := rest }
    else if a < ord.length ∧ idx < ord.length then
      { st with tileOrder := some (listSwap ord a idx), selected := rest }
    else { st with selected := rest }

/-- One step of the state machine, following `open_image`, `shuffle`,
`on_click` and `reset` of `PuzzleShuffleGUI`.  `open_image` clears
`tiles`/`tile_order`; `shuffle` requires a loaded image and installs a
freshly generated permutation; `on_click` requires tiles and an in-bounds
cell; `reset` requires tiles and installs the identity.  None of them
touches `selected` except the click logic itself. -/
def puzzleStep (st : PuzzleState) : Ev → PuzzleState
  | .load => { st with loaded := true, tileOrder := none }
  | .shuffle seed =>
      if st.loaded then
        { st with tileOrder := some (genOrder (st.gh * st.gw) seed) }
      else st
  | .click r c =>
      match st.tileOrder with
      | none => st
      | some ord =>
          if r < st.gh ∧ c < st.gw then clickCore st ord (r * st.gw + c) else st
  | .reset =>
      match st.tileOrder with
      | none => st
      | some _ => { st with tileOrder := some (List.range (st.gh * st.gw)) }

/-- Folding a sequence of events through the state machine. -/
def runEvents (st : PuzzleState) (evs : List Ev) : PuzzleState :=
  evs.foldl puzzleStep st

/-- The solved check of `on_click`:
`self.tile_order == list(range(len(self.tile_order)))`. -/
def reportsSolved (st : PuzzleState) : Bool :=
  match st.tileOrder with
  | some ord => ord == List.range ord.length
  | none => false

lemma listSwap_range_ne {n a idx : Nat} (ha : a < n) (hidx : idx < n)
    (hne : a ≠ idx) : listSwap (List.range n) a idx ≠ List.range n := by
  intro h
  have hga : (listSwap (List.range n) a idx).getD a 0 = idx := by
    rw [listSwap]
    rw [List.getD_eq_getElem _ _
      (by rw [List.length_set, List.length_set, List.length_range]; exact ha)]
    rw [List.getElem_set_ne (by omega)]
    rw [List.getElem_set_self]
    · exact range_getD_lt hidx
  have hgb : (List.range n).getD a 0 = a := range_getD_lt ha
  rw [h, hgb] at hga
  exact hne hga

/-- C4: after a click that swaps two distinct selected positions, the state
machine reports Solved exactly when the resulting permutation equals the
identity sequence `[0, 1, ..., rows*cols - 1]`, and reports Shuffled
otherwise; in particular, a permutation one transposition away from the
identity (swapping inside the solved state) is never reported Solved. -/
theorem click_swap_solved_iff_identity (st : PuzzleState) (ord : List Nat)
    (a r c : Nat) (hord : st.tileOrder = some ord)
    (hlen : ord.length = st.gh * st.gw) (hsel : st.selected = [a])
    (ha : a < st.gh * st.gw) (hr : r < st.gh) (hc : c < st.gw)
    (hne : a ≠ r * st.gw + c) :
    (puzzleStep st (.click r c)).tileOrder
        = some (listSwap ord a (r * st.gw + c))
    ∧ (reportsSolved (puzzleStep st (.click r c)) = true
        ↔ listSwap ord a (r * st.gw + c) = List.range (st.gh * st.gw))
    ∧ (ord = List.range (st.gh * st.gw) →
        reportsSolved (puzzleStep st (.click r c)) = false) := by
  have hidx : r * st.gw + c < st.gh * st.gw := block_lt hr hc
  have hstep : puzzleStep st (.click r c)
      = { st with tileOrder := some (listSwap ord a (r * st.gw + c)),
                  selected := [] } := by
    simp [puzzleStep, clickCore, hord, hsel, hr, hc, hne, hlen, ha, hidx]
  have hswlen : (listSwap ord a (r * st.gw + c)).length = st.gh * st.gw := by
    rw [listSwap_length, hlen]
  refine ⟨by rw [hstep], ?_, ?_⟩
  · rw [hstep]
    show ((listSwap ord a (r * st.gw + c)
        == List.range (listSwap ord a (r * st.gw + c)).length) = true) ↔ _
    rw [hswlen, beq_iff_eq]
  · intro hiden
    rw [hstep]
    show (listSwap ord a (r * st.gw + c)
        == List.range (listSwap ord a (r * st.gw + c)).length) = false
    rw [hswlen, beq_eq_false_iff_ne]
    rw [hiden]
    exact listSwap_range_ne ha hidx hne

theorem click_swap_solved_iff_identity_witness :
    (PuzzleState.mk 3 3 true (some (List.range 9)) [0]).tileOrder
        = some (List.range 9)
    ∧ (List.range 9).length = 3 * 3
    ∧ (PuzzleState.mk 3 3 true (some (List.range 9)) [0]).selected = [0]
    ∧ 0 < 3 * 3 ∧ 0 < 3 ∧ 1 < 3 ∧ 0 ≠ 0 * 3 + 1
    ∧ ((puzzleStep (PuzzleState.mk 3 3 true (some (List.range 9)) [0])
          (.click 0 1)).tileOrder = some (listSwap (List.range 9) 0 (0 * 3 + 1))
        ∧ (reportsSolved (puzzleStep (PuzzleState.mk 3 3 true
              (some (List.range 9)) [0]) (.click 0 1)) = true
            ↔ listSwap (List.range 9) 0 (0 * 3 + 1) = List.range (3 * 3))
        ∧ (List.range 9 = List.range (3 * 3) →
            reportsSolved (puzzleStep (PuzzleState.mk 3 3 true
              (some (List.range 9)) [0]) (.click 0 1)) = false)) :=
  ⟨rfl, by decide, rfl, by decide, by decide, by decide, by decide,
    click_swap_solved_iff_identity _ (List.range 9) 0 0 1 rfl (by decide) rfl
      (by decide) (by decide) (by decide) (by decide)⟩

/-- The permutation invariant: whenever tiles are present, `tile_order` is a
bijection on `{0 .. rows*cols - 1}`. -/
def PermOK (st : PuzzleState) : Prop :=
  ∀ ord, st.tileOrder = some ord → List.Perm ord (List.range (st.gh * st.gw))

lemma puzzleStep_gh (st : PuzzleState) (ev : Ev) :
    (puzzleStep st ev).gh = st.gh := by
  cases ev with
  | load => rfl
  | shuffle seed =>
      simp only [puzzleStep]
      split <;> rfl
  | reset =>
      simp only [puzzleStep]
      split <;> rfl
  | click r c =>
      simp only [puzzleStep]
      split
      · rfl
      · split
        · simp only [clickCore]
          split
          · rfl
          · split
            · rfl
            · split <;> rfl
        · rfl

lemma puzzleStep_gw (st : PuzzleState) (ev : Ev) :
    (puzzleStep st ev).gw = st.gw := by
  cases ev with
  | load => rfl
  | shuffle seed =>
      simp only [puzzleStep]
      split <;> rfl
  | reset =>
      simp only [puzzleStep]
      split <;> rfl
  | click r c =>
      simp only [puzzleStep]
      split
      · rfl
      · split
        · simp only [clickCore]
          split
          · rfl
          · split
            · rfl
            · split <;> rfl
        · rfl

lemma clickCore_tileOrder (st : PuzzleState) (ord : List Nat) (idx : Nat) :
    (clickCore st ord idx).tileOrder = st.tileOrder
    ∨ ∃ a, a < ord.length ∧ idx < ord.length
        ∧ (clickCore st ord idx).tileOrder = some (listSwap ord a idx) := by
  simp only [clickCore]
  by_cases hemp : st.selected.isEmpty
  · rw [if_pos hemp]
    left
    rfl
  · rw [if_neg hemp]
    by_cases heq : st.selected.getLastD 0 = idx
    · rw [if_pos heq]
      left
      rfl
    · rw [if_neg heq]
      by_cases hrange : st.selected.getLastD 0 < ord.length ∧ idx < ord.length
      · rw [if_pos hrange]
        right
        exact ⟨st.selected.getLastD 0, hrange.1, hrange.2, rfl⟩
      · rw [if_neg hrange]
        left
        rfl

lemma puzzleStep_permOK (st : PuzzleState) (h : PermOK st) (ev : Ev) :
    PermOK (puzzleStep st ev) := by
  intro ord hord
  rw [puzzleStep_gh, puzzleStep_gw]
  cases ev with
  | load => simp [puzzleStep] at hord
  | shuffle seed =>
      by_cases hl : st.loaded
      · simp only [puzzleStep, if_pos hl, Option.some.injEq] at hord
        subst hord
        exact genOrder_perm _ _
      · simp only [puzzleStep, if_neg hl] at hord
        exact h ord hord
  | reset =>
      rcases hto : st.tileOrder with _ | ord0
      · simp [puzzleStep, hto] at hord
      · simp only [puzzleStep, hto, Option.some.injEq] at hord
        subst hord
        exact List.Perm.refl _
  | click r c =>
      rcases hto : st.tileOrder with _ | ord0
      · simp [puzzleStep, hto] at hord
      · simp only [puzzleStep, hto] at hord
        by_cases hb : r < st.gh ∧ c < st.gw
        · rw [if_pos hb] at hord
          rcases clickCore_tileOrder st ord0 (r * st.gw + c) with
            hsame | ⟨a, ha, hidx, hsw⟩
          · rw [hsame, hto, Option.some.injEq] at hord
            subst hord
            exact h ord0 hto
          · rw [hsw, Option.some.injEq] at hord
            subst hord
            exact (listSwap_perm ord0 a _ ha hidx).trans (h ord0 hto)
        · rw [if_neg hb] at hord
          exact h ord hord

/-- C5: across any sequence of load/shuffle/click/reset events, the
permutation is a bijection on `{0 .. rows*cols - 1}` at every observable
step: it is only ever replaced wholesale by a freshly generated permutation
(shuffle) or the identity (reset) or changed by one in-range transposition
(click-swap), all of which preserve bijectivity. -/
theorem permutation_bijection_invariant (st : PuzzleState) (h : PermOK st)
    (evs : List Ev) : PermOK (runEvents st evs) := by
  induction evs generalizing st with
  | nil => exact h
  | cons e t ih => exact ih (puzzleStep st e) (puzzleStep_permOK st h e)

theorem permutation_bijection_invariant_witness :
    PermOK (runEvents (PuzzleState.mk 3 3 false none [])
      [Ev.load, Ev.shuffle 7, Ev.click 0 1, Ev.click 2 2, Ev.reset]) :=
  permutation_bijection_invariant (PuzzleState.mk 3 3 false none [])
    (fun _ hord => nomatch hord)
    [Ev.load, Ev.shuffle 7, Ev.click 0 1, Ev.click 2 2, Ev.reset]

/-- C6: from a shuffled state with no pending selection, clicking one
in-bounds grid cell and then clicking the same cell again performs no swap —
the permutation is unchanged — and clears the pending selection again
(back to the Shuffled configuration). -/
theorem same_position_toggle_noop (st : PuzzleState) (ord : List Nat)
    (r c : Nat) (hord : st.tileOrder = some ord) (hsel : st.selected = [])
    (hr : r < st.gh) (hc : c < st.gw) :
    (puzzleStep (puzzleStep st (.click r c)) (.click r c)).tileOrder = some ord
    ∧ (puzzleStep (puzzleStep st (.click r c)) (.click r c)).selected = [] := by
  have h1 : puzzleStep st (.click r c) = { st with selected := [r * st.gw + c] } := by
    simp [puzzleStep, hord, hr, hc, clickCore, hsel]
  have h2 : puzzleStep { st with selected := [r * st.gw + c] } (.click r c)
      = { st with selected := [] } := by
    simp [puzzleStep, hord, hr, hc, clickCore]
  rw [h1, h2]
  exact ⟨hord, rfl⟩

theorem same_position_toggle_noop_witness :
    (PuzzleState.mk 3 3 true (some (List.range 9)) []).tileOrder
        = some (List.range 9)
    ∧ (PuzzleState.mk 3 3 true (some (List.range 9)) []).selected = []
    ∧ 1 < 3 ∧ 2 < 3
    ∧ ((puzzleStep (puzzleStep (PuzzleState.mk 3 3 true (some (List.range 9)) [])
          (.click 1 2)) (.click 1 2)).tileOrder = some (List.range 9)
        ∧ (puzzleStep (puzzleStep (PuzzleState.mk 3 3 true (some (List.range 9)) [])
            (.click 1 2)) (.click 1 2)).selected = []) :=
  ⟨rfl, rfl, by decide, by decide,
    same_position_toggle_noop (PuzzleState.mk 3 3 true (some (List.range 9)) [])
      (List.range 9) 1 2 rfl rfl (by decide) (by decide)⟩

/-- C7 counterexample: in the concrete shuffled state with pending selection
`[2]` (reachable by load, shuffle, one click), neither `shuffle()` nor
`reset()` empties the selection — `PuzzleShuffleGUI.shuffle` and
`PuzzleShuffleGUI.reset` never touch `self.selected`. -/
theorem shuffle_reset_selection_not_cleared_cex :
    (puzzleStep (PuzzleState.mk 3 3 true (some (List.range 9)) [2])
        (Ev.shuffle 0)).selected ≠ []
    ∧ (puzzleStep (PuzzleState.mk 3 3 true (some (List.range 9)) [2])
        Ev.reset).selected ≠ [] := by
  constructor <;> simp [puzzleStep]

/-- C7 amended: `shuffle()` installs a freshly generated permutation and
`reset()` installs the identity permutation without reshuffling, but neither
clears a pending selection — both leave `selected` unchanged — and a pending
first click made before the shuffle still participates in a swap after it. -/
theorem shuffle_reset_keep_selection (st : PuzzleState) (seed : Nat)
    (ord : List Nat) (hl : st.loaded = true) (hord : st.tileOrder = some ord) :
    (puzzleStep st (.shuffle seed)).tileOrder
        = some (genOrder (st.gh * st.gw) seed)
    ∧ (puzzleStep st (.shuffle seed)).selected = st.selected
    ∧ (puzzleStep st Ev.reset).tileOrder = some (List.range (st.gh * st.gw))
    ∧ (puzzleStep st Ev.reset).selected = st.selected
    ∧ ∀ a r c, st.selected = [a] → r < st.gh → c < st.gw →
        a ≠ r * st.gw + c → a < st.gh * st.gw →
        (puzzleStep (puzzleStep st (.shuffle seed)) (.click r c)).tileOrder
          = some (listSwap (genOrder (st.gh * st.gw) seed) a (r * st.gw + c)) := by
  have hsh : puzzleStep st (.shuffle seed)
      = { st with tileOrder := some (genOrder (st.gh * st.gw) seed) } := by
    simp [puzzleStep, hl]
  have hrs : puzzleStep st Ev.reset
      = { st with tileOrder := some (List.range (st.gh * st.gw)) } := by
    simp [puzzleStep, hord]
  refine ⟨by rw [hsh], by rw [hsh], by rw [hrs], by rw [hrs], ?_⟩
  intro a r c hsel hr hc hne ha
  rw [hsh]
  have hglen : (genOrder (st.gh * st.gw) seed).length = st.gh * st.gw :=
    genOrder_length _ _
  have hidx : r * st.gw + c < st.gh * st.gw := block_lt hr hc
  simp [puzzleStep, clickCore, hsel, hr, hc, hne, hglen, ha, hidx]

theorem shuffle_reset_keep_selection_witness :
    (PuzzleState.mk 3 3 true (some (List.range 9)) [2]).loaded = true
    ∧ (PuzzleState.mk 3 3 true (some (List.range 9)) [2]).tileOrder
        = some (List.range 9)
    ∧ ((puzzleStep (PuzzleState.mk 3 3 true (some (List.range 9)) [2])
          (.shuffle 5)).tileOrder = some (genOrder (3 * 3) 5)
        ∧ (puzzleStep (PuzzleState.mk 3 3 true (some (List.range 9)) [2])
            (.shuffle 5)).selected = [2]
        ∧ (puzzleStep (PuzzleState.mk 3 3 true (some (List.range 9)) [2])
            Ev.reset).tileOrder = some (List.range (3 * 3))
        ∧ (puzzleStep (PuzzleState.mk 3 3 true (some (List.range 9)) [2])
            Ev.reset).selected = [2]
        ∧ ∀ a r c,
            (PuzzleState.mk 3 3 true (some (List.range 9)) [2]).selected = [a] →
            r < 3 → c < 3 → a ≠ r * 3 + c → a < 3 * 3 →
            (puzzleStep (puzzleStep
                (PuzzleState.mk 3 3 true (some (List.range 9)) [2])
                (.shuffle 5)) (.click r c)).tileOrder
              = some (listSwap (genOrder (3 * 3) 5) a (r * 3 + c))) :=
  ⟨rfl, rfl,
    shuffle_reset_keep_selection (PuzzleState.mk 3 3 true (some (List.range 9)) [2])
      5 (List.range 9) rfl rfl⟩

/-! ### Grid validation behaviour of the partition step -/

lemma partitionTiles_shape (img : Img) (gh gw : Nat) :
    ∀ t ∈ partitionTiles img gh gw, t.h = img.h / gh ∧ t.w = img.w / gw := by
  intro t ht
  rw [partitionTiles] at ht
  simp only [List.mem_flatMap, List.mem_map] at ht
  obtain ⟨i, _, j, _, rfl⟩ := ht
  exact ⟨rfl, rfl⟩

/-- The partition step of `shuffle_image_puzzle` with Python's error
behaviour made explicit: `h // gh` raises `ZeroDivisionError` when a grid
extent is zero; otherwise the nested loops always produce the tile list —
there is no grid validation of any kind in the code. -/
def partitionE (img : Img) (gh gw : Nat) : Except String (List Img) :=
  if gh = 0 ∨ gw = 0 then Except.error "ZeroDivisionError"
  else Except.ok (partitionTiles img gh gw)

/-- Follows the spec's words (§4.1, `TileGrid.partition`), for comparison
with the code: fail with `InvalidGridError` when a grid extent is zero or
the truncated tile size is below one pixel in either dimension. -/
def specPartitionE (img : Img) (gh gw : Nat) : Except String (List Img) :=
  if gh = 0 ∨ gw = 0 ∨ img.h / gh = 0 ∨ img.w / gw = 0 then
    Except.error "InvalidGridError"
  else Except.ok (partitionTiles img gh gw)

/-- C8 counterexample: a 2×2 image on a 3×3 grid has truncated tile height
`2 / 3 = 0 < 1`, yet the code does not fail — it returns a full sequence of
9 (degenerate) tiles where the spec's `partition` demands
`InvalidGridError` with no tile sequence returned. -/
theorem partition_no_invalid_grid_error_cex :
    (⟨2, 2, fun y x => y + x⟩ : Img).h / 3 = 0
    ∧ partitionE ⟨2, 2, fun y x => y + x⟩ 3 3
        = Except.ok (partitionTiles ⟨2, 2, fun y x => y + x⟩ 3 3)
    ∧ (partitionTiles ⟨2, 2, fun y x => y + x⟩ 3 3).length = 9
    ∧ specPartitionE ⟨2, 2, fun y x => y + x⟩ 3 3
        = Except.error "InvalidGridError" := by
  refine ⟨rfl, rfl, ?_, rfl⟩
  rw [partitionTiles_length]

/-- C8 amended: the code performs no grid validation.  `rows = 0` or
`cols = 0` fails with a `ZeroDivisionError` (not an `InvalidGridError`)
before any tile is produced; a truncated tile size below one pixel does
*not* fail — exactly `rows*cols` degenerate tiles are returned; and for
every non-zero grid, exactly `rows*cols` tiles are returned, each of size
`(H / rows, W / cols)`. -/
theorem partition_validation_actual (img : Img) (gh gw : Nat) :
    (gh = 0 ∨ gw = 0 → partitionE img gh gw = Except.error "ZeroDivisionError")
    ∧ (0 < gh → 0 < gw →
        partitionE img gh gw = Except.ok (partitionTiles img gh gw)
        ∧ (partitionTiles img gh gw).length = gh * gw
        ∧ ∀ t ∈ partitionTiles img gh gw,
            t.h = img.h / gh ∧ t.w = img.w / gw) := by
  constructor
  · intro h
    rw [partitionE, if_pos h]
  · intro hg hw
    refine ⟨?_, partitionTiles_length img gh gw, partitionTiles_shape img gh gw⟩
    rw [partitionE, if_neg (by omega)]

theorem partition_validation_actual_witness :
    ((0 : Nat) = 0 ∨ (3 : Nat) = 0)
    ∧ partitionE sampleImg 0 3 = Except.error "ZeroDivisionError"
    ∧ (0 : Nat) < 3
    ∧ (partitionE sampleImg 3 3 = Except.ok (partitionTiles sampleImg 3 3)
        ∧ (partitionTiles sampleImg 3 3).length = 3 * 3
        ∧ ∀ t ∈ partitionTiles sampleImg 3 3,
            t.h = sampleImg.h / 3 ∧ t.w = sampleImg.w / 3) :=
  ⟨Or.inl rfl, (partition_validation_actual sampleImg 0 3).1 (Or.inl rfl),
    by decide,
    (partition_validation_actual sampleImg 3 3).2 (by decide) (by decide)⟩

/-! ### Batch-mode seed derivation (`process_all_images`) -/

/-- Modelled from the spec: the builtin `hash(fname)` used by
`process_all_images` is CPython's string hash, implemented outside this
repository and salted with a process-wide random value (hash
randomization, `PYTHONHASHSEED`), so it is a function of both the salt and
the characters.  It is modelled as an explicit pure mixing function of the
per-process salt and the string's character codes. -/
def pyStrHash (salt : Nat) (s : List Nat) : Nat :=
  s.foldl (fun h c => ((h ^^^ c) * 1099511628211 + salt) % 18446744073709551616)
    ((salt + 14695981039346656037) % 18446744073709551616)

/-- `seed = hash(fname) & 0xFFFFFFFF` of `process_all_images`, line 116:
the low 32 bits of the salted string hash. -/
def batchSeed (salt : Nat) (fname : List Nat) : Nat :=
  pyStrHash salt fname % 4294967296

/-- The `tile_order` recorded in the solution map for one file of the batch:
`shuffle_image_puzzle(img, grid_size, seed)` with the filename-derived
seed. -/
def batchTileOrder (salt : Nat) (fname : List Nat) (img : Img) (gh gw : Nat) :
    List Nat :=
  (shuffle_image_puzzle img gh gw (batchSeed salt fname)).2

lemma shuffle_image_puzzle_order (img : Img) (gh gw seed : Nat) :
    (shuffle_image_puzzle img gh gw seed).2 = genOrder (gh * gw) seed := by
  show genOrder (partitionTiles img gh gw).length seed = _
  rw [partitionTiles_length]

/-- C3 counterexample: for the filename `"a.png"` (character codes
`[97, 46, 112, 110, 103]`), two different per-process hash salts produce
different 32-bit seeds and different recorded `tile_order` permutations —
the derivation is a salted builtin hash, not a frozen function of the
filename alone, so two runs of the program need not agree. -/
theorem batch_seed_not_frozen_cex :
    batchSeed 0 [97, 46, 112, 110, 103] ≠ batchSeed 1 [97, 46, 112, 110, 103]
    ∧ batchTileOrder 0 [97, 46, 112, 110, 103] (zeroImg 60 60) 3 3
        ≠ batchTileOrder 1 [97, 46, 112, 110, 103] (zeroImg 60 60) 3 3 := by
  have hs0 : batchSeed 0 [97, 46, 112, 110, 103] = 1806194553 := by decide
  have hs1 : batchSeed 1 [97, 46, 112, 110, 103] = 2446944513 := by decide
  constructor
  · rw [hs0, hs1]
    decide
  · simp only [batchTileOrder]
    rw [shuffle_image_puzzle_order, shuffle_image_puzzle_order, hs0, hs1]
    decide

/-- C3 amended: the batch seed is `hash(fname) & 0xFFFFFFFF` with the
salted builtin string hash.  Within one program run — i.e. for a fixed hash
salt — the same filename always yields the same 32-bit seed and the same
recorded `tile_order` (a pure function of the salt, the filename and the
grid, independent of the image's pixels); across runs the salt changes, so
the derivation is not frozen. -/
theorem batch_seed_deterministic_within_run (salt : Nat) (fname : List Nat)
    (img : Img) (gh gw : Nat) :
    batchSeed salt fname < 4294967296
    ∧ batchTileOrder salt fname img gh gw
        = genOrder (gh * gw) (batchSeed salt fname) := by
  refine ⟨Nat.mod_lt _ (by omega), ?_⟩
  show genOrder (partitionTiles img gh gw).length (batchSeed salt fname) = _
  rw [partitionTiles_length]

/-! ### Viewport geometry of `_show_cv` and `on_click` -/

/-- Display geometry stored by `_show_cv`: displayed width/height and the
centering offsets (`_displayed_img_w/h`, `_displayed_offset_x/y`). -/
structure DispGeom where
  dw : Int
  dh : Int
  ox : Int
  oy : Int
deriving DecidableEq

/-- The fit ("contain") branch of `_show_cv`, in exact rational arithmetic:
`scale = min(pw/img_w, ph/img_h)`, `new_w = int(img_w*scale)`,
`offset = (panel - new) // 2`.  Every floating-point value reached in the
verified 400×300/200×200 scenario (2, 3/2, 300, 75, and the quotients of
integers by 75) is a small dyadic rational represented exactly by both IEEE
doubles and `ℚ`; `int()` of these non-negative values is the floor, and
Python's integer `//` is `Int.fdiv`. -/
def showCvFit (pw ph iw ih : Nat) : DispGeom :=
  let scale : ℚ := min ((pw : ℚ) / iw) ((ph : ℚ) / ih)
  let nw : Int := ⌊(iw : ℚ) * scale⌋
  let nh : Int := ⌊(ih : ℚ) * scale⌋
  ⟨nw, nh, Int.fdiv ((pw : Int) - nw) 2, Int.fdiv ((ph : Int) - nh) 2⟩

/-- The coordinate mapping of `on_click`: translate by the stored offsets,
reject clicks outside the displayed image, then
`col = int(x // (w/gw))`, `row = int(y // (h/gh))` with a final bounds
check — all rounding by floor. -/
def onClickCell (d : DispGeom) (gh gw : Nat) (ex ey : Int) : Option (Int × Int) :=
  let x := ex - d.ox
  let y := ey - d.oy
  if x < 0 ∨ y < 0 ∨ d.dw ≤ x ∨ d.dh ≤ y then none
  else
    let col : Int := ⌊(x : ℚ) / ((d.dw : ℚ) / gw)⌋
    let row : Int := ⌊(y : ℚ) / ((d.dh : ℚ) / gh)⌋
    if 0 ≤ col ∧ col < gw ∧ 0 ≤ row ∧ row < gh then some (row, col) else none

/-- The integer pixel at the exact center of displayed cell `(r, c)`:
`(offset + (c + 1/2) · cell_extent)`, floor-rounded to a pixel. -/
def cellCenterClick (d : DispGeom) (gh gw r c : Nat) : Int × Int :=
  (d.ox + ⌊((c : ℚ) + 1 / 2) * ((d.dw : ℚ) / gw)⌋,
   d.oy + ⌊((r : ℚ) + 1 / 2) * ((d.dh : ℚ) / gh)⌋)

/-- C9: with a 4×4 grid, contain fit, a 400×300 viewport and a 200×200
logical image, the image is displayed at 300×300 with offsets (50, 0), the
exact center of displayed cell (row 1, col 2) is pixel (237, 112), and
clicking it maps back to grid cell (1, 2) — all rounding by floor. -/
theorem contain_fit_center_roundtrip :
    showCvFit 400 300 200 200 = ⟨300, 300, 50, 0⟩
    ∧ cellCenterClick (showCvFit 400 300 200 200) 4 4 1 2 = (237, 112)
    ∧ onClickCell (showCvFit 400 300 200 200) 4 4 237 112 = some (1, 2) := by
  have h1 : showCvFit 400 300 200 200 = ⟨300, 300, 50, 0⟩ := by
    rw [showCvFit]
    norm_num [min_def, DispGeom.mk.injEq]
    decide
  refine ⟨h1, ?_, ?_⟩
  · rw [h1, cellCenterClick]
    norm_num [Prod.ext_iff]
  · rw [h1, onClickCell]
    norm_num

/-! ### Grid-divisible working size of the interactive shuffle -/

/-- The truncation `(k // g) * g` used by `PuzzleShuffleGUI.shuffle` to make
the working size grid-divisible, in both branches: fit mode uses
`int(w*scale) // gw * gw`, fill-box mode uses `(cw // gw) * gw` on the
cropped extent. -/
def gridFloor (k g : Nat) : Nat := k / g * g

/-- `cv2.resize(img, (nw, nh))`: an image of the requested extent; the
interpolated content (irrelevant to every claim below) is modelled as
nearest-neighbour sampling. -/
def cvResize (img : Img) (nh nw : Nat) : Img :=
  ⟨nh, nw, fun y x => img.px (y * img.h / nh) (x * img.w / nw)⟩

/-- `PuzzleShuffleGUI._assemble`: `th, tw = tiles[0].shape[:2]`, a zero
canvas of extent `(th*gh, tw*gw)`, and tile `tile_order[i*gw + j]` written
at grid position `(i, j)`. -/
def assembleImg (gh gw : Nat) (tiles : List Img) (ord : List Nat) : Img :=
  ⟨(tiles.headD (zeroImg 0 0)).h * gh, (tiles.headD (zeroImg 0 0)).w * gw,
    fun y x =>
      let th := (tiles.headD (zeroImg 0 0)).h
      let tw := (tiles.headD (zeroImg 0 0)).w
      if y < gh * th ∧ x < gw * tw then
        (tiles.getD (ord.getD (y / th * gw + x / tw) 0) (zeroImg th tw)).px
          (y % th) (x % tw)
      else 0⟩

lemma partitionTiles_headD (img : Img) {gh gw : Nat} (hg : 0 < gh)
    (hw : 0 < gw) (d : Img) :
    (partitionTiles img gh gw).headD d
      = tileOf img (img.h / gh) (img.w / gw) 0 0 := by
  obtain ⟨g, rfl⟩ : ∃ g, gh = g + 1 := ⟨gh - 1, by omega⟩
  obtain ⟨l, rfl⟩ : ∃ l, gw = l + 1 := ⟨gw - 1, by omega⟩
  simp [partitionTiles, List.range_succ_eq_map]

/-- C10: every successful interactive `shuffle()` works on an image whose
height is an exact multiple of `rows` and whose width is an exact multiple
of `cols` — in fit mode the working size is
`(int(h*scale) // gh * gh, int(w*scale) // gw * gw)` and in fill-box mode
`((ch // gh) * gh, (cw // gw) * gw)`, both of the truncated form proved
here for arbitrary pre-truncation extents `n`, `m` — therefore all
`rows*cols` tiles cut from it share the exact shape `(H/rows, W/cols)`, and
`_assemble` produces an image of exactly the working extent, with no
remainder pixels. -/
theorem shuffle_resize_grid_divisible (img : Img) (gh gw m n : Nat)
    (hg : 0 < gh) (hw : 0 < gw) :
    gh ∣ gridFloor n gh
    ∧ gw ∣ gridFloor m gw
    ∧ (∀ t ∈ partitionTiles (cvResize img (gridFloor n gh) (gridFloor m gw)) gh gw,
        t.h = gridFloor n gh / gh ∧ t.w = gridFloor m gw / gw)
    ∧ ∀ ord : List Nat,
        (assembleImg gh gw
          (partitionTiles (cvResize img (gridFloor n gh) (gridFloor m gw)) gh gw)
          ord).h = gridFloor n gh
        ∧ (assembleImg gh gw
            (partitionTiles (cvResize img (gridFloor n gh) (gridFloor m gw)) gh gw)
            ord).w = gridFloor m gw := by
  have hdh : gh ∣ gridFloor n gh := ⟨n / gh, by rw [gridFloor, Nat.mul_comm]⟩
  have hdw : gw ∣ gridFloor m gw := ⟨m / gw, by rw [gridFloor, Nat.mul_comm]⟩
  refine ⟨hdh, hdw, ?_, ?_⟩
  · intro t ht
    exact partitionTiles_shape _ gh gw t ht
  · intro ord
    constructor
    · show ((partitionTiles (cvResize img (gridFloor n gh) (gridFloor m gw))
          gh gw).headD (zeroImg 0 0)).h * gh = gridFloor n gh
      rw [partitionTiles_headD _ hg hw]
      show gridFloor n gh / gh * gh = gridFloor n gh
      exact Nat.div_mul_cancel hdh
    · show ((partitionTiles (cvResize img (gridFloor n gh) (gridFloor m gw))
          gh gw).headD (zeroImg 0 0)).w * gw = gridFloor m gw
      rw [partitionTiles_headD _ hg hw]
      show gridFloor m gw / gw * gw = gridFloor m gw
      exact Nat.div_mul_cancel hdw

theorem shuffle_resize_grid_divisible_witness :
    (0 : Nat) < 3
    ∧ (3 ∣ gridFloor 8 3
        ∧ 3 ∣ gridFloor 7 3
        ∧ (∀ t ∈ partitionTiles (cvResize sampleImg (gridFloor 8 3) (gridFloor 7 3)) 3 3,
            t.h = gridFloor 8 3 / 3 ∧ t.w = gridFloor 7 3 / 3)
        ∧ ∀ ord : List Nat,
            (assembleImg 3 3
              (partitionTiles (cvResize sampleImg (gridFloor 8 3) (gridFloor 7 3)) 3 3)
              ord).h = gridFloor 8 3
            ∧ (assembleImg 3 3
                (partitionTiles (cvResize sampleImg (gridFloor 8 3) (gridFloor 7 3)) 3 3)
                ord).w = gridFloor 7 3) :=
  ⟨by decide,
    shuffle_resize_grid_divisible sampleImg 3 3 7 8 (by decide) (by decide)⟩
